import Mathlib

/-!
Verification of the deadlock-avoidance resource ledger (banker's algorithm)
implemented in `yinhangjia.py`.

The Python core is shallowly embedded: Python `int` becomes `Int`, Python
lists become `List`, the vector helpers `vec_le`/`vec_add`/`vec_sub` (which
use `zip`, hence truncate to the shorter operand) become structurally
recursive functions with the same truncating semantics, and the mutating
methods of `BankerSystem` become pure state-passing functions.  A Python
`raise` is rendered as `none`; a normal return as `some`.
-/

/-- `vec_le a b` mirrors `all(x <= y for x, y in zip(a, b))`:
componentwise comparison, truncated to the shorter list. -/
def vec_le : List Int → List Int → Bool
  | x :: a, y :: b => decide (x ≤ y) && vec_le a b
  | _, _ => true

/-- `vec_add a b` mirrors `[x + y for x, y in zip(a, b)]`. -/
def vec_add : List Int → List Int → List Int
  | x :: a, y :: b => (x + y) :: vec_add a b
  | _, _ => []

/-- `vec_sub a b` mirrors `[x - y for x, y in zip(a, b)]`. -/
def vec_sub : List Int → List Int → List Int
  | x :: a, y :: b => (x - y) :: vec_sub a b
  | _, _ => []

/-- The ledger state: the fields of the Python `BankerSystem` dataclass. -/
structure BankerSystem where
  n : Nat
  m : Nat
  available : List Int
  max_need : List (List Int)
  allocation : List (List Int)
deriving Repr, DecidableEq

/-- Well-formedness of the stored dimensions: `available` has length `m`,
and `max_need`/`allocation` are `n × m` matrices.  The Python constructor
path guarantees this shape for every ledger actually built. -/
def BankerSystem.WF (s : BankerSystem) : Prop :=
  s.available.length = s.m ∧
  s.max_need.length = s.n ∧ (∀ r ∈ s.max_need, r.length = s.m) ∧
  s.allocation.length = s.n ∧ (∀ r ∈ s.allocation, r.length = s.m)

instance (s : BankerSystem) : Decidable s.WF := by
  unfold BankerSystem.WF; infer_instance

/-- Invariant I1 of the data model: `0 ≤ Allocation[i][j] ≤ Max[i][j]`. -/
def BankerSystem.I1 (s : BankerSystem) : Prop :=
  ∀ i < s.n, ∀ j < s.m,
    0 ≤ (s.allocation.getD i []).getD j 0 ∧
    (s.allocation.getD i []).getD j 0 ≤ (s.max_need.getD i []).getD j 0

instance (s : BankerSystem) : Decidable s.I1 := by
  unfold BankerSystem.I1; infer_instance

/-- Invariant I2 of the data model: `Available[j] ≥ 0`. -/
def BankerSystem.I2 (s : BankerSystem) : Prop :=
  ∀ j < s.m, 0 ≤ s.available.getD j 0

instance (s : BankerSystem) : Decidable s.I2 := by
  unfold BankerSystem.I2; infer_instance

/-- `need()`: the derived matrix `Need[i][j] = Max[i][j] - Allocation[i][j]`,
built exactly as the Python double comprehension over `range(n)`/`range(m)`. -/
def BankerSystem.need (s : BankerSystem) : List (List Int) :=
  (List.range s.n).map fun i =>
    (List.range s.m).map fun j =>
      (s.max_need.getD i []).getD j 0 - (s.allocation.getD i []).getD j 0

/-- The local variables of `safety_check`'s loop:
`work`, `finish`, `seq`, and the `changed` flag. -/
structure ScanState where
  work : List Int
  finish : List Bool
  seq : List Nat
  changed : Bool
deriving Repr, DecidableEq

/-- One iteration of the inner `for i in range(self.n)` loop body of
`safety_check`: if process `i` is unfinished and `Need[i] ≤ work`, absorb its
allocation into `work`, mark it finished, append it to the sequence, and set
the `changed` flag. -/
def scanStep (need alloc : List (List Int)) (st : ScanState) (i : Nat) : ScanState :=
  if !st.finish.getD i false && vec_le (need.getD i []) st.work then
    { work := vec_add st.work (alloc.getD i []),
      finish := st.finish.set i true,
      seq := st.seq ++ [i],
      changed := true }
  else st

/-- One full pass of the inner `for` loop, after `changed = False`. -/
def onePass (need alloc : List (List Int)) (n : Nat) (st : ScanState) : ScanState :=
  (List.range n).foldl (scanStep need alloc) { st with changed := false }

/-- The outer `while changed:` loop, fuelled.  Each pass that fires at least
one step strictly increases the number of finished processes, so fuel
`n + 1` always suffices (proved below in `safetyLoop_exit`). -/
def safetyLoop (need alloc : List (List Int)) (n : Nat) : Nat → ScanState → ScanState
  | 0, st => st
  | fuel + 1, st =>
    let st' := onePass need alloc n st
    if st'.changed then safetyLoop need alloc n fuel st' else st'

/-- `safety_check()`: returns `(all(finish), seq)` after the scan loop. -/
def BankerSystem.safety_check (s : BankerSystem) : Bool × List Nat :=
  let st := safetyLoop s.need s.allocation s.n (s.n + 1)
    { work := s.available, finish := List.replicate s.n false, seq := [], changed := true }
  (st.finish.all (fun b => b), st.seq)

/-- The rejection/acceptance outcomes of `request`, one per `return` site
(the Python code distinguishes them by its printed message). -/
inductive RequestOutcome where
  | exceedsNeed
  | exceedsAvailable
  | deniedBySafety
  | granted
deriving Repr, DecidableEq

/-- `granted` is the only outcome for which the Python method returns `True`. -/
def RequestOutcome.toBool : RequestOutcome → Bool
  | .granted => true
  | _ => false

/-- `request(pid, req)`.  `none` models the two `raise ValueError` guards.
A `some` result carries the outcome, the post-state, and the number of
`safety_check` invocations the call performed (0 or 1), mirroring the
instrumented counter the spec's Scenario E asks about. -/
def BankerSystem.request (s : BankerSystem) (pid : Int) (req : List Int) :
    Option (RequestOutcome × BankerSystem × Nat) :=
  if pid < 0 ∨ (s.n : Int) ≤ pid then none
  else if req.length ≠ s.m then none
  else
    let p := pid.toNat
    if !vec_le req (s.need.getD p []) then some (.exceedsNeed, s, 0)
    else if !vec_le req s.available then some (.exceedsAvailable, s, 0)
    else
      let avail2 := vec_sub s.available req
      let alloc2 := s.allocation.set p (vec_add (s.allocation.getD p []) req)
      let tmp : BankerSystem := { s with available := avail2, allocation := alloc2 }
      if tmp.safety_check.1 then some (.granted, tmp, 1)
      else some (.deniedBySafety, s, 1)

/-- `release(pid, rel)`.  `none` models the two `raise ValueError` guards;
otherwise the boolean result and the post-state.  The body performs no
safety check: an in-precondition release commits unconditionally. -/
def BankerSystem.release (s : BankerSystem) (pid : Int) (rel : List Int) :
    Option (Bool × BankerSystem) :=
  if pid < 0 ∨ (s.n : Int) ≤ pid then none
  else if rel.length ≠ s.m then none
  else
    let p := pid.toNat
    if !vec_le rel (s.allocation.getD p []) then some (false, s)
    else some (true, { s with
      allocation := s.allocation.set p (vec_sub (s.allocation.getD p []) rel),
      available := vec_add s.available rel })

/-!
Reference formulations of the safety scan, used to settle the
refinement claims about tie-break order.
-/

/-- Reference inner pass written by structural recursion over the index
list: scan the indices in order; on a hit, absorb the allocation and
continue the scan with the remaining indices (the continue-scan reading). -/
def contPass (need alloc : List (List Int)) : List Nat → ScanState → ScanState
  | [], st => st
  | i :: rest, st =>
    if !st.finish.getD i false && vec_le (need.getD i []) st.work then
      contPass need alloc rest
        { work := vec_add st.work (alloc.getD i []),
          finish := st.finish.set i true,
          seq := st.seq ++ [i],
          changed := true }
    else contPass need alloc rest st

/-- Reference outer loop for the continue-scan reading: a fresh pass over
`0..n-1` starts only when the previous pass fired at least once. -/
def contScanLoop (need alloc : List (List Int)) (n : Nat) : Nat → ScanState → ScanState
  | 0, st => st
  | fuel + 1, st =>
    let st' := contPass need alloc (List.range n) { st with changed := false }
    if st'.changed then contScanLoop need alloc n fuel st' else st'

/-- The continue-scan reference check, assembled like `safety_check`. -/
def contScanCheck (s : BankerSystem) : Bool × List Nat :=
  let st := contScanLoop s.need s.allocation s.n (s.n + 1)
    { work := s.available, finish := List.replicate s.n false, seq := [], changed := true }
  (st.finish.all (fun b => b), st.seq)

/-- First unfinished process whose need fits below `work`, scanning from
index 0 — the restart-from-top reference's selection function. -/
def findEligible (need : List (List Int)) (n : Nat) (finish : List Bool)
    (work : List Int) : Option Nat :=
  (List.range n).find? fun i => !finish.getD i false && vec_le (need.getD i []) work

/-- Restart-from-top reference of the spec's §4.1 step 2: after every
completion the scan restarts at index 0, so each step selects the
lowest-index satisfiable process against the current `work`. -/
def restartScanLoop (need alloc : List (List Int)) (n : Nat) :
    Nat → List Int → List Bool → List Nat → Bool × List Nat
  | 0, _, finish, seq => (finish.all (fun b => b), seq)
  | fuel + 1, work, finish, seq =>
    match findEligible need n finish work with
    | none => (finish.all (fun b => b), seq)
    | some i => restartScanLoop need alloc n fuel
        (vec_add work (alloc.getD i [])) (finish.set i true) (seq ++ [i])

/-- The restart-from-top reference check over a ledger state. -/
def restartScanCheck (s : BankerSystem) : Bool × List Nat :=
  restartScanLoop s.need s.allocation s.n (s.n + 1) s.available
    (List.replicate s.n false) []

/-- A state separating the two tie-break orders: process 1 completes
first, which makes both 0 and 2 satisfiable; the code's continuing scan
reaches 2 before wrapping round to 0, the restart reading picks 0 first. -/
def tieBreakState : BankerSystem :=
  { n := 3, m := 1,
    available := [0],
    max_need := [[1], [0], [1]],
    allocation := [[0], [1], [0]] }

/-- A state on which a negative request component slips through: all
rejection guards compare with `≤`, which a negative component passes. -/
def negReqState : BankerSystem :=
  { n := 1, m := 1, available := [0], max_need := [[0]], allocation := [[0]] }

/-- The state `negReqState.request 0 [-1]` commits. -/
def negReqPost : BankerSystem :=
  { n := 1, m := 1, available := [1], max_need := [[0]], allocation := [[-1]] }

/-- `work` after a completion order `σ` has run, starting from `w`:
every completed process returns its allocation row into the pool. -/
def chainWork (alloc : List (List Int)) : List Int → List Nat → List Int
  | w, [] => w
  | w, i :: rest => chainWork alloc (vec_add w (alloc.getD i [])) rest

/-- `σ` is a valid completion order from working vector `w`: each process
in turn has its need below the current pool, which then absorbs its
allocation. -/
def ValidChain (need alloc : List (List Int)) : List Int → List Nat → Prop
  | _, [] => True
  | w, i :: rest => vec_le (need.getD i []) w = true ∧
      ValidChain need alloc (vec_add w (alloc.getD i [])) rest

/-- Total supply of resource class `j` implied by a state: the free units
plus the units held across all allocation rows. -/
def totalOf (s : BankerSystem) (j : Nat) : Int :=
  s.available.getD j 0 + (s.allocation.map (fun row => row.getD j 0)).sum

/-- Invariant tying a scan state to the ledger it was started from:
`finish` has length `n` and agrees with membership in `seq`; `seq` is a
duplicate-free list of process indices below `n`; `work` is the start
vector plus the allocations of the finished processes; and `seq` is a
valid completion order. -/
def ScanInv (need alloc : List (List Int)) (n : Nat) (avail : List Int)
    (st : ScanState) : Prop :=
  st.finish.length = n ∧
  (∀ i, st.finish.getD i false = true ↔ i ∈ st.seq) ∧
  st.seq.Nodup ∧
  (∀ i ∈ st.seq, i < n) ∧
  st.work = chainWork alloc avail st.seq ∧
  ValidChain need alloc avail st.seq

/-- The scan state in which `safety_check` ends. -/
def finalScan (s : BankerSystem) : ScanState :=
  safetyLoop s.need s.allocation s.n (s.n + 1)
    { work := s.available, finish := List.replicate s.n false, seq := [], changed := true }

/-- The Scenario A state: the classic textbook instance. -/
def scenarioA : BankerSystem :=
  { n := 5, m := 3,
    available := [3, 3, 2],
    max_need := [[7, 5, 3], [3, 2, 2], [9, 0, 2], [2, 2, 2], [4, 3, 3]],
    allocation := [[0, 1, 0], [2, 0, 0], [3, 0, 2], [2, 1, 1], [0, 0, 2]] }

/-- Scenario B's post-state: `scenarioA` after granting `request(1, [1,0,2])`. -/
def scenarioBPost : BankerSystem :=
  { n := 5, m := 3,
    available := [2, 3, 0],
    max_need := [[7, 5, 3], [3, 2, 2], [9, 0, 2], [2, 2, 2], [4, 3, 3]],
    allocation := [[0, 1, 0], [3, 0, 2], [3, 0, 2], [2, 1, 1], [0, 0, 2]] }

/-! Small facts about the vector helpers and list access. -/

theorem vec_add_nil_left (b : List Int) : vec_add [] b = [] := by
  cases b <;> rfl

theorem vec_le_eq_false_of_lt :
    ∀ (a b : List Int) (j : Nat), j < a.length → j < b.length →
      b.getD j 0 < a.getD j 0 → vec_le a b = false
  | x :: a, y :: b, 0, _, _, hlt => by
    simp only [List.getD_cons_zero] at hlt
    simp [vec_le, hlt.not_le]
  | x :: a, y :: b, j + 1, ha, hb, hlt => by
    simp only [List.getD_cons_succ] at hlt
    have := vec_le_eq_false_of_lt a b j (Nat.lt_of_succ_lt_succ ha)
      (Nat.lt_of_succ_lt_succ hb) hlt
    simp [vec_le, this]

theorem getD_set_ne {α : Type} (l : List α) (p i : Nat) (a d : α) (h : i ≠ p) :
    (l.set p a).getD i d = l.getD i d := by
  simp [List.getD_eq_getElem?_getD, List.getElem?_set_ne (Ne.symm h)]

theorem getD_set_self {α : Type} (l : List α) (p : Nat) (a d : α) (h : p < l.length) :
    (l.set p a).getD p d = a := by
  simp [List.getD_eq_getElem?_getD, List.getElem?_set_self h]

theorem need_getD (s : BankerSystem) (i : Nat) (hi : i < s.n) :
    s.need.getD i [] = (List.range s.m).map (fun j =>
      (s.max_need.getD i []).getD j 0 - (s.allocation.getD i []).getD j 0) := by
  simp [BankerSystem.need, List.getD_eq_getElem?_getD, List.getElem?_range hi]

theorem need_getD_length (s : BankerSystem) (i : Nat) (hi : i < s.n) :
    (s.need.getD i []).length = s.m := by
  rw [need_getD s i hi]; simp

/-- C1: on the Scenario A state the safety check reports safe with
completion sequence `[1, 3, 4, 0, 2]`. -/
theorem scenarioA_safety_check :
    scenarioA.safety_check = (true, [1, 3, 4, 0, 2]) := by decide

/-- C2 counterexample: on `tieBreakState` the code's safety check returns
the sequence `[1, 2, 0]`, while the restart-from-top reference of the
claim returns `[1, 0, 2]` — the two sequences differ. -/
theorem safety_check_ne_restart_reference :
    tieBreakState.safety_check.2 = [1, 2, 0] ∧
    (restartScanCheck tieBreakState).2 = [1, 0, 2] ∧
    tieBreakState.safety_check.2 ≠ (restartScanCheck tieBreakState).2 := by decide

/-- C10: `negReqState` satisfies I1 and I2, yet the request `[-1]` of
correct length with a negative component is granted with no exception,
leaving `Allocation[0][0] = -1 < 0` in violation of I1. -/
theorem request_negative_component_breaks_I1 :
    negReqState.I1 ∧ negReqState.I2 ∧ ([-1] : List Int).length = negReqState.m ∧
    negReqState.request 0 [-1] = some (.granted, negReqPost, 1) ∧
    (negReqPost.allocation.getD 0 []).getD 0 0 < 0 := by decide

/-- C4: a `request` call that returns `False` (any rejecting outcome)
leaves `Available`, `Allocation` and `Max` exactly as they were. -/
theorem request_rejected_preserves_state (s : BankerSystem) (pid : Int) (req : List Int)
    (out : RequestOutcome) (s' : BankerSystem) (k : Nat)
    (h : s.request pid req = some (out, s', k)) (hfalse : out.toBool = false) :
    s'.available = s.available ∧ s'.allocation = s.allocation ∧
      s'.max_need = s.max_need := by
  simp only [BankerSystem.request] at h
  split at h
  · exact absurd h (by simp)
  split at h
  · exact absurd h (by simp)
  split at h
  · simp only [Option.some.injEq, Prod.mk.injEq] at h
    obtain ⟨-, rfl, -⟩ := h
    exact ⟨rfl, rfl, rfl⟩
  split at h
  · simp only [Option.some.injEq, Prod.mk.injEq] at h
    obtain ⟨-, rfl, -⟩ := h
    exact ⟨rfl, rfl, rfl⟩
  split at h
  · simp only [Option.some.injEq, Prod.mk.injEq] at h
    obtain ⟨hout, -, -⟩ := h
    subst hout
    simp [RequestOutcome.toBool] at hfalse
  · simp only [Option.some.injEq, Prod.mk.injEq] at h
    obtain ⟨-, rfl, -⟩ := h
    exact ⟨rfl, rfl, rfl⟩

/-- C6: a granted `request` subtracts `req` from `Available`, adds it to
row `pid` of `Allocation`, and changes nothing else: every other
allocation row and the whole `Max` matrix are untouched. -/
theorem request_granted_effect (s : BankerSystem) (pid : Int) (req : List Int)
    (s' : BankerSystem) (k : Nat)
    (h : s.request pid req = some (.granted, s', k)) :
    s'.available = vec_sub s.available req ∧
    s'.allocation.getD pid.toNat [] = vec_add (s.allocation.getD pid.toNat []) req ∧
    (∀ i, i ≠ pid.toNat → s'.allocation.getD i [] = s.allocation.getD i []) ∧
    s'.max_need = s.max_need := by
  simp only [BankerSystem.request] at h
  split at h
  · exact absurd h (by simp)
  split at h
  · exact absurd h (by simp)
  split at h
  · simp at h
  split at h
  · simp at h
  split at h
  case _ =>
    simp only [Option.some.injEq, Prod.mk.injEq] at h
    obtain ⟨-, rfl, -⟩ := h
    refine ⟨rfl, ?_, fun i hi => getD_set_ne _ _ _ _ _ hi, rfl⟩
    by_cases hp : pid.toNat < s.allocation.length
    · exact getD_set_self _ _ _ _ hp
    · rw [List.set_eq_of_length_le (Nat.le_of_not_lt hp)]
      have : s.allocation.getD pid.toNat [] = [] := by
        simp [List.getD_eq_getElem?_getD, List.getElem?_eq_none (Nat.le_of_not_lt hp)]
      rw [this, vec_add_nil_left]
  case _ => simp at h

theorem request_isSome (s : BankerSystem) (pid : Int) (v : List Int)
    (h1 : ¬(pid < 0 ∨ (s.n : Int) ≤ pid)) (h2 : v.length = s.m) :
    ∃ r, s.request pid v = some r := by
  simp only [BankerSystem.request]
  rw [if_neg h1, if_neg (fun hc => hc h2)]
  split
  · exact ⟨_, rfl⟩
  split
  · exact ⟨_, rfl⟩
  split
  · exact ⟨_, rfl⟩
  · exact ⟨_, rfl⟩

theorem release_isSome (s : BankerSystem) (pid : Int) (v : List Int)
    (h1 : ¬(pid < 0 ∨ (s.n : Int) ≤ pid)) (h2 : v.length = s.m) :
    ∃ r, s.release pid v = some r := by
  simp only [BankerSystem.release]
  rw [if_neg h1, if_neg (fun hc => hc h2)]
  split
  · exact ⟨_, rfl⟩
  · exact ⟨_, rfl⟩

/-- C5: whenever some component of the request exceeds the corresponding
component of `Need[pid]`, the call ends at the first guard with outcome
`ExceedsNeed`: the state is returned untouched and the safety-check
invocation counter of the call is 0 — the `Available` comparison and the
speculative safety phase are never reached, whatever `Available` is. -/
theorem request_exceeding_need_rejected (s : BankerSystem) (pid : Int) (req : List Int)
    (hp0 : 0 ≤ pid) (hpn : pid < (s.n : Int)) (hlen : req.length = s.m)
    (j : Nat) (hj : j < s.m)
    (hexc : (s.need.getD pid.toNat []).getD j 0 < req.getD j 0) :
    s.request pid req = some (.exceedsNeed, s, 0) := by
  have hpnat : pid.toNat < s.n := by omega
  have hrow := need_getD_length s pid.toNat hpnat
  have hfalse : vec_le req (s.need.getD pid.toNat []) = false :=
    vec_le_eq_false_of_lt _ _ j (by rw [hlen]; exact hj) (by rw [hrow]; exact hj) hexc
  simp only [BankerSystem.request]
  rw [if_neg (by push_neg; exact ⟨hp0, hpn⟩), if_neg (fun hc => hc hlen),
    if_pos (by rw [hfalse]; rfl)]

/-- C8: `request` and `release` signal a precondition violation (a Python
`ValueError`, modelled as `none`) exactly when `pid` lies outside `[0, n)`
or the vector's length differs from `m`; every in-range call returns an
ordinary boolean outcome. -/
theorem request_release_raise_iff (s : BankerSystem) (pid : Int) (v : List Int)
    (_hwf : s.WF) :
    (s.request pid v = none ↔ (pid < 0 ∨ (s.n : Int) ≤ pid ∨ v.length ≠ s.m)) ∧
    (s.release pid v = none ↔ (pid < 0 ∨ (s.n : Int) ≤ pid ∨ v.length ≠ s.m)) := by
  constructor
  · constructor
    · intro hc
      by_contra hr
      push_neg at hr
      obtain ⟨ha, hb, hm⟩ := hr
      obtain ⟨r, hr'⟩ := request_isSome s pid v (by push_neg; exact ⟨ha, hb⟩) hm
      rw [hr'] at hc
      cases hc
    · intro hc
      simp only [BankerSystem.request]
      by_cases hc1 : pid < 0 ∨ (s.n : Int) ≤ pid
      · rw [if_pos hc1]
      · rcases hc with h | h | h
        · exact absurd (Or.inl h) hc1
        · exact absurd (Or.inr h) hc1
        · rw [if_neg hc1, if_pos h]
  · constructor
    · intro hc
      by_contra hr
      push_neg at hr
      obtain ⟨ha, hb, hm⟩ := hr
      obtain ⟨r, hr'⟩ := release_isSome s pid v (by push_neg; exact ⟨ha, hb⟩) hm
      rw [hr'] at hc
      cases hc
    · intro hc
      simp only [BankerSystem.release]
      by_cases hc1 : pid < 0 ∨ (s.n : Int) ≤ pid
      · rw [if_pos hc1]
      · rcases hc with h | h | h
        · exact absurd (Or.inl h) hc1
        · exact absurd (Or.inr h) hc1
        · rw [if_neg hc1, if_pos h]

/-- Witness for C4 at Scenario C: `request(0, [1,0,2])` on Scenario A is
denied by the safety check and leaves the state untouched. -/
theorem request_rejected_preserves_state_witness :
    scenarioA.available = scenarioA.available ∧
    scenarioA.allocation = scenarioA.allocation ∧
    scenarioA.max_need = scenarioA.max_need :=
  request_rejected_preserves_state scenarioA 0 [1, 0, 2] .deniedBySafety scenarioA 1
    (by decide) (by decide)

/-- Witness for C5: on Scenario A, `request(0, [8,0,0])` exceeds
`Need[0] = [7,4,3]` at component 0 and is rejected without a safety check. -/
theorem request_exceeding_need_rejected_witness :
    scenarioA.request 0 [8, 0, 0] = some (.exceedsNeed, scenarioA, 0) :=
  request_exceeding_need_rejected scenarioA 0 [8, 0, 0]
    (by decide) (by decide) (by decide) 0 (by decide) (by decide)

/-- Witness for C6 at Scenario B: granting `request(1, [1,0,2])` on
Scenario A yields `Available = [2,3,0]` and `Allocation[1] = [3,0,2]`. -/
theorem request_granted_effect_witness :
    scenarioBPost.available = vec_sub scenarioA.available [1, 0, 2] ∧
    scenarioBPost.allocation.getD (Int.toNat 1) [] =
      vec_add (scenarioA.allocation.getD (Int.toNat 1) []) [1, 0, 2] ∧
    (∀ i, i ≠ Int.toNat 1 →
      scenarioBPost.allocation.getD i [] = scenarioA.allocation.getD i []) ∧
    scenarioBPost.max_need = scenarioA.max_need :=
  request_granted_effect scenarioA 1 [1, 0, 2] scenarioBPost 1 (by decide)

/-- Witness for C8: `pid = 7` is out of range for Scenario A, so both
operations raise. -/
theorem request_release_raise_iff_witness :
    scenarioA.request 7 [0, 0, 0] = none ∧ scenarioA.release 7 [0, 0, 0] = none := by
  have h := request_release_raise_iff scenarioA 7 [0, 0, 0] (by decide)
  exact ⟨h.1.mpr (by decide), h.2.mpr (by decide)⟩

theorem getD_eq_getElem_of_lt {α : Type} (l : List α) (p : Nat) (d : α)
    (h : p < l.length) : l.getD p d = l[p] := by
  rw [List.getD_eq_getElem?_getD, List.getElem?_eq_getElem h]
  rfl

theorem sum_set_int : ∀ (l : List Int) (p : Nat) (x : Int), p < l.length →
    (l.set p x).sum = l.sum - l.getD p 0 + x
  | a :: l, 0, x, _ => by
    simp only [List.set, List.sum_cons, List.getD_cons_zero]
    ring
  | a :: l, p + 1, x, h => by
    have ih := sum_set_int l p x (Nat.lt_of_succ_lt_succ h)
    simp only [List.set, List.sum_cons, List.getD_cons_succ, ih]
    ring

theorem getD_vec_add : ∀ (a b : List Int) (j : Nat), j < a.length → j < b.length →
    (vec_add a b).getD j 0 = a.getD j 0 + b.getD j 0
  | x :: a, y :: b, 0, _, _ => rfl
  | x :: a, y :: b, j + 1, ha, hb => by
    simpa [vec_add] using
      getD_vec_add a b j (Nat.lt_of_succ_lt_succ ha) (Nat.lt_of_succ_lt_succ hb)

theorem getD_vec_sub : ∀ (a b : List Int) (j : Nat), j < a.length → j < b.length →
    (vec_sub a b).getD j 0 = a.getD j 0 - b.getD j 0
  | x :: a, y :: b, 0, _, _ => rfl
  | x :: a, y :: b, j + 1, ha, hb => by
    simpa [vec_sub] using
      getD_vec_sub a b j (Nat.lt_of_succ_lt_succ ha) (Nat.lt_of_succ_lt_succ hb)

theorem getD_map_row (l : List (List Int)) (f : List Int → Int) (p : Nat)
    (h : p < l.length) : (l.map f).getD p 0 = f (l.getD p []) := by
  rw [List.getD_eq_getElem?_getD, List.getElem?_map, List.getElem?_eq_getElem h,
    getD_eq_getElem_of_lt l p [] h]
  rfl

theorem request_granted_eq (s : BankerSystem) (pid : Int) (req : List Int)
    (s' : BankerSystem) (k : Nat)
    (h : s.request pid req = some (.granted, s', k)) :
    ¬(pid < 0 ∨ (s.n : Int) ≤ pid) ∧ req.length = s.m ∧
    s' = { s with
      available := vec_sub s.available req,
      allocation := s.allocation.set pid.toNat
        (vec_add (s.allocation.getD pid.toNat []) req) } := by
  simp only [BankerSystem.request] at h
  by_cases h1 : pid < 0 ∨ (s.n : Int) ≤ pid
  · rw [if_pos h1] at h; cases h
  rw [if_neg h1] at h
  by_cases h2 : req.length ≠ s.m
  · rw [if_pos h2] at h; cases h
  rw [if_neg h2] at h
  push_neg at h2
  refine ⟨h1, h2, ?_⟩
  split at h
  · simp at h
  split at h
  · simp at h
  split at h
  · simp only [Option.some.injEq, Prod.mk.injEq] at h
    exact h.2.1.symm
  · simp at h

theorem release_true_eq (s : BankerSystem) (pid : Int) (rel : List Int) (s' : BankerSystem)
    (h : s.release pid rel = some (true, s')) :
    ¬(pid < 0 ∨ (s.n : Int) ≤ pid) ∧ rel.length = s.m ∧
    vec_le rel (s.allocation.getD pid.toNat []) = true ∧
    s' = { s with
      allocation := s.allocation.set pid.toNat
        (vec_sub (s.allocation.getD pid.toNat []) rel),
      available := vec_add s.available rel } := by
  simp only [BankerSystem.release] at h
  by_cases h1 : pid < 0 ∨ (s.n : Int) ≤ pid
  · rw [if_pos h1] at h; cases h
  rw [if_neg h1] at h
  by_cases h2 : rel.length ≠ s.m
  · rw [if_pos h2] at h; cases h
  rw [if_neg h2] at h
  push_neg at h2
  split at h
  · simp at h
  case _ hle =>
    simp only [Option.some.injEq, Prod.mk.injEq] at h
    exact ⟨h1, h2, by simpa using hle, h.2.symm⟩

/-- C7: a committed `request` and a committed `release` both conserve, for
every resource class `j`, the total `Available[j] + Σᵢ Allocation[i][j]`. -/
theorem request_release_conservation (s : BankerSystem) (pid : Int) (v : List Int)
    (hwf : s.WF) :
    (∀ s' k, s.request pid v = some (.granted, s', k) →
      ∀ j < s.m, totalOf s' j = totalOf s j) ∧
    (∀ s', s.release pid v = some (true, s') →
      ∀ j < s.m, totalOf s' j = totalOf s j) := by
  obtain ⟨hav, hmx, hmxr, hal, halr⟩ := hwf
  have rowfacts : ∀ h1 : ¬(pid < 0 ∨ (s.n : Int) ≤ pid),
      pid.toNat < s.allocation.length ∧
      (s.allocation.getD pid.toNat []).length = s.m := by
    intro h1
    push_neg at h1
    have hp : pid.toNat < s.n := by omega
    have hpl : pid.toNat < s.allocation.length := by omega
    refine ⟨hpl, halr _ ?_⟩
    rw [getD_eq_getElem_of_lt _ _ _ hpl]
    exact List.getElem_mem hpl
  constructor
  · rintro s' k h j hj
    obtain ⟨h1, hlen, rfl⟩ := request_granted_eq s pid v s' k h
    obtain ⟨hpl, hrow⟩ := rowfacts h1
    have hmap : pid.toNat < (s.allocation.map (fun r => r.getD j 0)).length := by
      simpa using hpl
    simp only [totalOf, List.map_set]
    rw [sum_set_int _ _ _ hmap, getD_map_row _ _ _ hpl,
      getD_vec_sub _ _ _ (by omega) (by omega),
      getD_vec_add _ _ _ (by omega) (by omega)]
    ring
  · rintro s' h j hj
    obtain ⟨h1, hlen, hle, rfl⟩ := release_true_eq s pid v s' h
    obtain ⟨hpl, hrow⟩ := rowfacts h1
    have hmap : pid.toNat < (s.allocation.map (fun r => r.getD j 0)).length := by
      simpa using hpl
    simp only [totalOf, List.map_set]
    rw [sum_set_int _ _ _ hmap, getD_map_row _ _ _ hpl,
      getD_vec_add _ _ _ (by omega) (by omega),
      getD_vec_sub _ _ _ (by omega) (by omega)]
    ring

/-- Witness for C7: both a committed request (Scenario B) and a committed
release conserve the per-class totals on Scenario A. -/
theorem request_release_conservation_witness :
    (∀ s' k, scenarioA.request 1 [1, 0, 2] = some (.granted, s', k) →
      ∀ j < scenarioA.m, totalOf s' j = totalOf scenarioA j) ∧
    (∀ s', scenarioA.release 1 [1, 0, 2] = some (true, s') →
      ∀ j < scenarioA.m, totalOf s' j = totalOf scenarioA j) :=
  request_release_conservation scenarioA 1 [1, 0, 2] (by decide)

/-! Facts about the inner scan: monotonicity of the `changed` flag and of
the finished count, and what a pass that fires nothing tells us. -/

theorem finish_false_of_guard {need : List (List Int)} {st : ScanState} {i : Nat}
    (hg : (!st.finish.getD i false && vec_le (need.getD i []) st.work) = true) :
    st.finish.getD i false = false := by
  have := ((Bool.and_eq_true _ _).mp hg).1
  simpa using this

theorem scanStep_finish_length (need alloc : List (List Int)) (st : ScanState) (i : Nat) :
    (scanStep need alloc st i).finish.length = st.finish.length := by
  unfold scanStep
  split <;> simp

theorem foldl_scanStep_finish_length (need alloc : List (List Int)) :
    ∀ (is : List Nat) (st : ScanState),
    ((is.foldl (scanStep need alloc) st).finish.length = st.finish.length)
  | [], _ => rfl
  | i :: is, st => by
    rw [List.foldl_cons, foldl_scanStep_finish_length need alloc is _,
      scanStep_finish_length]

theorem scanStep_changed_mono (need alloc : List (List Int)) (st : ScanState) (i : Nat)
    (h : st.changed = true) : (scanStep need alloc st i).changed = true := by
  unfold scanStep
  split
  · rfl
  · exact h

theorem foldl_scanStep_changed_mono (need alloc : List (List Int)) :
    ∀ (is : List Nat) (st : ScanState), st.changed = true →
    (is.foldl (scanStep need alloc) st).changed = true
  | [], _, h => h
  | i :: is, st, h => by
    rw [List.foldl_cons]
    exact foldl_scanStep_changed_mono need alloc is _ (scanStep_changed_mono need alloc st i h)

theorem foldl_scanStep_unchanged (need alloc : List (List Int)) :
    ∀ (is : List Nat) (st : ScanState), st.changed = false →
    (is.foldl (scanStep need alloc) st).changed = false →
    is.foldl (scanStep need alloc) st = st ∧
    ∀ i ∈ is, st.finish.getD i false = false → vec_le (need.getD i []) st.work = false
  | [], st, _, _ => ⟨rfl, by intro i hi; cases hi⟩
  | i :: is, st, h0, h => by
    rw [List.foldl_cons] at h ⊢
    by_cases hg : (!st.finish.getD i false && vec_le (need.getD i []) st.work) = true
    · exfalso
      have h1 : (scanStep need alloc st i).changed = true := by
        unfold scanStep
        rw [if_pos hg]
      rw [foldl_scanStep_changed_mono need alloc is _ h1] at h
      cases h
    · have hstep : scanStep need alloc st i = st := by
        unfold scanStep
        rw [if_neg hg]
      rw [hstep] at h ⊢
      obtain ⟨h2, h3⟩ := foldl_scanStep_unchanged need alloc is st h0 h
      refine ⟨h2, ?_⟩
      intro j hj
      rcases List.mem_cons.mp hj with rfl | hj'
      · intro hf
        simp only [hf, Bool.not_false, Bool.true_and] at hg
        simpa using hg
      · exact h3 j hj'

theorem count_set_true (l : List Bool) (i : Nat) (h : i < l.length)
    (hf : l.getD i false = false) :
    (l.set i true).count true = l.count true + 1 := by
  have hl : l[i] = false := by
    rw [← getD_eq_getElem_of_lt l i false h]
    exact hf
  rw [List.count_set _ _ _ _ h, hl]
  simp

theorem scanStep_count_ge (need alloc : List (List Int)) (st : ScanState) (i : Nat) :
    st.finish.count true ≤ (scanStep need alloc st i).finish.count true := by
  unfold scanStep
  split
  case _ hg =>
    by_cases hi : i < st.finish.length
    · rw [count_set_true st.finish i hi (finish_false_of_guard hg)]
      omega
    · rw [List.set_eq_of_length_le (Nat.le_of_not_lt hi)]
  case _ => exact le_refl _

theorem foldl_scanStep_count_ge (need alloc : List (List Int)) :
    ∀ (is : List Nat) (st : ScanState),
    st.finish.count true ≤ (is.foldl (scanStep need alloc) st).finish.count true
  | [], _ => le_refl _
  | i :: is, st => by
    rw [List.foldl_cons]
    exact le_trans (scanStep_count_ge need alloc st i)
      (foldl_scanStep_count_ge need alloc is _)

theorem foldl_scanStep_count_gt (need alloc : List (List Int)) :
    ∀ (is : List Nat) (st : ScanState), (∀ i ∈ is, i < st.finish.length) →
    st.changed = false → (is.foldl (scanStep need alloc) st).changed = true →
    st.finish.count true < (is.foldl (scanStep need alloc) st).finish.count true
  | [], st, _, h0, h => by
    rw [List.foldl_nil] at h
    rw [h0] at h
    cases h
  | i :: is, st, hlen, h0, h => by
    rw [List.foldl_cons] at h ⊢
    by_cases hg : (!st.finish.getD i false && vec_le (need.getD i []) st.work) = true
    · have hstep : (scanStep need alloc st i).finish.count true = st.finish.count true + 1 := by
        unfold scanStep
        rw [if_pos hg]
        exact count_set_true st.finish i (hlen i (List.mem_cons_self i is))
          (finish_false_of_guard hg)
      calc st.finish.count true < (scanStep need alloc st i).finish.count true := by omega
        _ ≤ _ := foldl_scanStep_count_ge need alloc is _
    · have hstep : scanStep need alloc st i = st := by
        unfold scanStep
        rw [if_neg hg]
      rw [hstep] at h ⊢
      exact foldl_scanStep_count_gt need alloc is st
        (fun j hj => hlen j (List.mem_cons_of_mem i hj)) h0 h

theorem chainWork_append (alloc : List (List Int)) :
    ∀ (σ : List Nat) (w : List Int) (x : Nat),
    chainWork alloc w (σ ++ [x]) = vec_add (chainWork alloc w σ) (alloc.getD x [])
  | [], _, _ => rfl
  | i :: σ, w, x => by
    simp only [List.cons_append, chainWork]
    exact chainWork_append alloc σ _ x

theorem ValidChain_append (need alloc : List (List Int)) :
    ∀ (σ : List Nat) (w : List Int) (x : Nat),
    ValidChain need alloc w σ →
    vec_le (need.getD x []) (chainWork alloc w σ) = true →
    ValidChain need alloc w (σ ++ [x])
  | [], _, _, _, hle => ⟨hle, trivial⟩
  | i :: σ, w, x, hc, hle => by
    refine ⟨hc.1, ?_⟩
    exact ValidChain_append need alloc σ _ x hc.2 hle

theorem scanStep_inv (need alloc : List (List Int)) (n : Nat) (avail : List Int)
    (st : ScanState) (i : Nat) (hin : i < n)
    (h : ScanInv need alloc n avail st) :
    ScanInv need alloc n avail (scanStep need alloc st i) := by
  obtain ⟨hlen, hmem, hnd, hbd, hwork, hchain⟩ := h
  unfold scanStep
  split
  case _ hg =>
    have hgf := finish_false_of_guard hg
    have hgle : vec_le (need.getD i []) st.work = true := ((Bool.and_eq_true _ _).mp hg).2
    have hnotmem : i ∉ st.seq := fun hmem' => by
      rw [(hmem i).mpr hmem'] at hgf
      cases hgf
    refine ⟨by simpa using hlen, ?_, ?_, ?_, ?_, ?_⟩
    · intro j
      by_cases hji : j = i
      · subst hji
        rw [getD_set_self st.finish j true false (by omega)]
        simp
      · rw [getD_set_ne st.finish i j true false hji, hmem j]
        simp [hji]
    · simp [List.nodup_append, hnd, hnotmem]
    · intro j hj
      rcases List.mem_append.mp hj with hj' | hj'
      · exact hbd j hj'
      · rw [List.mem_singleton.mp hj']
        exact hin
    · rw [chainWork_append, hwork]
    · exact ValidChain_append need alloc st.seq avail i hchain (hwork ▸ hgle)
  case _ => exact ⟨hlen, hmem, hnd, hbd, hwork, hchain⟩

theorem foldl_scanStep_inv (need alloc : List (List Int)) (n : Nat) (avail : List Int) :
    ∀ (is : List Nat) (st : ScanState), (∀ i ∈ is, i < n) →
    ScanInv need alloc n avail st →
    ScanInv need alloc n avail (is.foldl (scanStep need alloc) st)
  | [], _, _, h => h
  | i :: is, st, hbd, h => by
    rw [List.foldl_cons]
    exact foldl_scanStep_inv need alloc n avail is _
      (fun j hj => hbd j (List.mem_cons_of_mem i hj))
      (scanStep_inv need alloc n avail st i (hbd i (List.mem_cons_self i is)) h)

theorem safetyLoop_inv (need alloc : List (List Int)) (n : Nat) (avail : List Int) :
    ∀ (fuel : Nat) (st : ScanState), ScanInv need alloc n avail st →
    ScanInv need alloc n avail (safetyLoop need alloc n fuel st)
  | 0, _, h => h
  | fuel + 1, st, h => by
    simp only [safetyLoop]
    have hpass : ScanInv need alloc n avail (onePass need alloc n st) := by
      unfold onePass
      exact foldl_scanStep_inv need alloc n avail (List.range n) _
        (fun j hj => List.mem_range.mp hj) h
    split
    · exact safetyLoop_inv need alloc n avail fuel _ hpass
    · exact hpass

theorem getD_replicate_false (n i : Nat) :
    (List.replicate n false).getD i false = false := by
  by_cases hi : i < n
  · rw [List.getD_eq_getElem?_getD, List.getElem?_replicate_of_lt hi]
    rfl
  · rw [List.getD_eq_getElem?_getD, List.getElem?_eq_none (by simp; omega)]
    rfl

theorem ScanInv_init (need alloc : List (List Int)) (n : Nat) (avail : List Int) :
    ScanInv need alloc n avail
      { work := avail, finish := List.replicate n false, seq := [], changed := true } := by
  refine ⟨by simp, ?_, List.nodup_nil, by simp, rfl, trivial⟩
  intro i
  simp [getD_replicate_false]

theorem safetyLoop_exit (need alloc : List (List Int)) (n : Nat) :
    ∀ (fuel : Nat) (st : ScanState), st.finish.length = n →
    n < st.finish.count true + fuel →
    ∀ i ∈ List.range n,
      (safetyLoop need alloc n fuel st).finish.getD i false = false →
      vec_le (need.getD i []) (safetyLoop need alloc n fuel st).work = false
  | 0, st, hlen, hfuel, i, hi, hf => by
    exfalso
    have := List.count_le_length true st.finish
    omega
  | fuel + 1, st, hlen, hfuel, i, hi, hf => by
    simp only [safetyLoop] at hf ⊢
    by_cases hch : (onePass need alloc n st).changed = true
    · rw [if_pos hch] at hf ⊢
      have hlen' : (onePass need alloc n st).finish.length = n := by
        unfold onePass
        rw [foldl_scanStep_finish_length]
        exact hlen
      have hcount : st.finish.count true < (onePass need alloc n st).finish.count true := by
        unfold onePass at hch ⊢
        exact foldl_scanStep_count_gt need alloc (List.range n) _
          (fun j hj => by simpa [hlen] using List.mem_range.mp hj) rfl hch
      exact safetyLoop_exit need alloc n fuel _ hlen' (by omega) i hi hf
    · rw [if_neg hch] at hf ⊢
      obtain ⟨heq, hguards⟩ := foldl_scanStep_unchanged need alloc (List.range n)
        { st with changed := false } rfl (by unfold onePass at hch; simpa using hch)
      unfold onePass at hf ⊢
      rw [heq] at hf ⊢
      exact hguards i hi hf

theorem finalScan_inv (s : BankerSystem) :
    ScanInv s.need s.allocation s.n s.available (finalScan s) :=
  safetyLoop_inv s.need s.allocation s.n s.available (s.n + 1) _
    (ScanInv_init s.need s.allocation s.n s.available)

theorem finalScan_exit (s : BankerSystem) :
    ∀ i < s.n, (finalScan s).finish.getD i false = false →
    vec_le (s.need.getD i []) (finalScan s).work = false := by
  intro i hi hf
  refine safetyLoop_exit s.need s.allocation s.n (s.n + 1) _ (by simp) ?_ i
    (List.mem_range.mpr hi) hf
  rw [List.count_replicate]
  simp

/-- C9: the pair returned by `safety_check` satisfies: the sequence is
duplicate-free, all its entries are process indices below `n`, and the
boolean is true exactly when the sequence has length `n` (on an unsafe
verdict it is the proper list of processes that could finish). -/
theorem safety_check_seq_shape (s : BankerSystem) :
    s.safety_check.2.Nodup ∧ (∀ i ∈ s.safety_check.2, i < s.n) ∧
    (s.safety_check.1 = true ↔ s.safety_check.2.length = s.n) := by
  obtain ⟨hlen, hmem, hnd, hbd, -, -⟩ := finalScan_inv s
  have heq : s.safety_check =
      ((finalScan s).finish.all (fun b => b), (finalScan s).seq) := rfl
  rw [heq]
  refine ⟨hnd, hbd, ?_⟩
  have hsub2 : List.Subperm (finalScan s).seq (List.range s.n) :=
    List.subperm_of_subset hnd (fun i hi => List.mem_range.mpr (hbd i hi))
  constructor
  · intro hall
    have hsub : ∀ i ∈ List.range s.n, i ∈ (finalScan s).seq := by
      intro i hi
      have hilt := List.mem_range.mp hi
      apply (hmem i).mp
      rw [getD_eq_getElem_of_lt _ _ _ (by omega)]
      exact (List.all_eq_true.mp hall) _ (List.getElem_mem (by omega))
    have h1 : s.n ≤ (finalScan s).seq.length := by
      simpa using (List.subperm_of_subset (List.nodup_range s.n) hsub).length_le
    have h2 := hsub2.length_le
    simp only [List.length_range] at h2
    simp
    omega
  · intro hl
    simp only at hl
    have hperm : List.Perm (finalScan s).seq (List.range s.n) :=
      hsub2.perm_of_length_le (by simp [hl])
    rw [List.all_eq_true]
    intro b hb
    obtain ⟨i, hi, hbe⟩ := List.mem_iff_getElem.mp hb
    have himem : i ∈ (finalScan s).seq :=
      hperm.mem_iff.mpr (List.mem_range.mpr (by omega))
    have hfin := (hmem i).mpr himem
    rw [getD_eq_getElem_of_lt _ _ _ hi] at hfin
    rw [← hbe]
    exact hfin

theorem contPass_eq_foldl (need alloc : List (List Int)) :
    ∀ (is : List Nat) (st : ScanState),
    contPass need alloc is st = is.foldl (scanStep need alloc) st
  | [], _ => rfl
  | i :: is, st => by
    rw [List.foldl_cons]
    unfold contPass scanStep
    split
    · exact contPass_eq_foldl need alloc is _
    · exact contPass_eq_foldl need alloc is _

theorem contScanLoop_eq_safetyLoop (need alloc : List (List Int)) (n : Nat) :
    ∀ (fuel : Nat) (st : ScanState),
    contScanLoop need alloc n fuel st = safetyLoop need alloc n fuel st
  | 0, _ => rfl
  | fuel + 1, st => by
    simp only [contScanLoop, safetyLoop]
    unfold onePass
    rw [contPass_eq_foldl]
    split
    · exact contScanLoop_eq_safetyLoop need alloc n fuel _
    · rfl

/-- C2 amended: `safety_check` agrees, on every state, with the reference
that continues the scan at the next index after a completion and starts a
fresh pass from index 0 only once the current pass has run to the end. -/
theorem safety_check_eq_contScanCheck (s : BankerSystem) :
    s.safety_check = contScanCheck s := by
  unfold BankerSystem.safety_check contScanCheck
  rw [contScanLoop_eq_safetyLoop]

/-! Vector algebra used by the release-preserves-safety proof. -/

theorem vec_le_nil_left (b : List Int) : vec_le [] b = true := by
  cases b <;> rfl

theorem vec_add_length : ∀ (a b : List Int),
    (vec_add a b).length = min a.length b.length
  | [], b => by cases b <;> simp [vec_add]
  | x :: a, [] => by simp [vec_add]
  | x :: a, y :: b => by
    simp only [vec_add, List.length_cons, vec_add_length a b]
    omega

theorem vec_sub_length : ∀ (a b : List Int),
    (vec_sub a b).length = min a.length b.length
  | [], b => by cases b <;> simp [vec_sub]
  | x :: a, [] => by simp [vec_sub]
  | x :: a, y :: b => by
    simp only [vec_sub, List.length_cons, vec_sub_length a b]
    omega

theorem vec_add_right_comm : ∀ (a b c : List Int),
    vec_add (vec_add a b) c = vec_add (vec_add a c) b
  | [], b, c => by cases b <;> cases c <;> rfl
  | x :: a, [], c => by cases c <;> rfl
  | x :: a, y :: b, [] => rfl
  | x :: a, y :: b, z :: c => by
    simp only [vec_add, List.cons.injEq]
    exact ⟨by ring, vec_add_right_comm a b c⟩

theorem vec_add_sub_cancel : ∀ (w a r : List Int), w.length = a.length →
    a.length = r.length →
    vec_add (vec_add w r) (vec_sub a r) = vec_add w a
  | [], [], [], _, _ => rfl
  | x :: w, y :: a, z :: r, hw, ha => by
    simp only [vec_add, vec_sub, List.cons.injEq]
    refine ⟨by ring, ?_⟩
    exact vec_add_sub_cancel w a r (by simpa using hw) (by simpa using ha)

theorem vec_le_add_of_nonneg : ∀ (a w r : List Int), vec_le a w = true →
    (∀ x ∈ r, 0 ≤ x) → vec_le a (vec_add w r) = true
  | [], w, r, _, _ => vec_le_nil_left _
  | x :: a, [], r, _, _ => by rw [vec_add_nil_left]; rfl
  | x :: a, y :: w, [], _, _ => rfl
  | x :: a, y :: w, z :: r, h, hr => by
    simp only [vec_le, Bool.and_eq_true, decide_eq_true_eq] at h ⊢
    refine ⟨?_, vec_le_add_of_nonneg a w r h.2 (fun u hu => hr u (List.mem_cons_of_mem z hu))⟩
    have hz : (0 : Int) ≤ z := hr z (List.mem_cons_self z r)
    omega

theorem vec_le_add_both : ∀ (a b c : List Int), vec_le a b = true →
    vec_le (vec_add a c) (vec_add b c) = true
  | [], b, c, _ => by rw [vec_add_nil_left]; exact vec_le_nil_left _
  | x :: a, [], c, _ => by rw [vec_add_nil_left]; cases vec_add (x :: a) c <;> rfl
  | x :: a, y :: b, [], _ => rfl
  | x :: a, y :: b, z :: c, h => by
    simp only [vec_le, Bool.and_eq_true, decide_eq_true_eq] at h ⊢
    exact ⟨by omega, vec_le_add_both a b c h.2⟩

theorem vec_le_iff_getD : ∀ (a b : List Int), a.length = b.length →
    (vec_le a b = true ↔ ∀ j < a.length, a.getD j 0 ≤ b.getD j 0)
  | [], [], _ => by simp [vec_le]
  | x :: a, y :: b, h => by
    have ih := vec_le_iff_getD a b (by simpa using h)
    simp only [vec_le, Bool.and_eq_true, decide_eq_true_eq, List.length_cons]
    constructor
    · rintro ⟨h1, h2⟩ j hj
      cases j with
      | zero => exact h1
      | succ j => exact (ih.mp h2) j (by omega)
    · intro hall
      refine ⟨hall 0 (by omega), ih.mpr ?_⟩
      intro j hj
      exact hall (j + 1) (by omega)

theorem getD_zero_of_le (l : List Int) (j : Nat) (h : l.length ≤ j) :
    l.getD j 0 = 0 := by
  rw [List.getD_eq_getElem?_getD, List.getElem?_eq_none h]
  rfl

theorem chainWork_length (alloc : List (List Int)) (m : Nat) :
    ∀ (σ : List Nat) (w : List Int), w.length = m →
    (∀ i ∈ σ, (alloc.getD i []).length = m) →
    (chainWork alloc w σ).length = m
  | [], _, hw, _ => hw
  | i :: σ, w, hw, hr => by
    have hw' : (vec_add w (alloc.getD i [])).length = m := by
      rw [vec_add_length, hw, hr i (List.mem_cons_self i σ)]
      omega
    show (chainWork alloc (vec_add w (alloc.getD i [])) σ).length = m
    exact chainWork_length alloc m σ _ hw'
      (fun u hu => hr u (List.mem_cons_of_mem i hu))

theorem chainWork_getD (alloc : List (List Int)) :
    ∀ (σ : List Nat) (w : List Int) (j : Nat), j < w.length →
    (∀ i ∈ σ, j < (alloc.getD i []).length) →
    (chainWork alloc w σ).getD j 0 =
      w.getD j 0 + (σ.map (fun i => (alloc.getD i []).getD j 0)).sum
  | [], w, j, _, _ => by simp [chainWork]
  | i :: σ, w, j, hj, hr => by
    have hj' : j < (vec_add w (alloc.getD i [])).length := by
      rw [vec_add_length]
      have := hr i (List.mem_cons_self i σ)
      omega
    have ih := chainWork_getD alloc σ (vec_add w (alloc.getD i [])) j hj'
      (fun u hu => hr u (List.mem_cons_of_mem i hu))
    show (chainWork alloc (vec_add w (alloc.getD i [])) σ).getD j 0 = _
    rw [ih, getD_vec_add w _ j hj (hr i (List.mem_cons_self i σ))]
    simp only [List.map_cons, List.sum_cons]
    ring

theorem sublist_sum_le : ∀ {l₁ l₂ : List Int}, l₁.Sublist l₂ →
    (∀ x ∈ l₂, 0 ≤ x) → l₁.sum ≤ l₂.sum := by
  intro l₁ l₂ h
  induction h with
  | slnil => intro _; exact le_refl _
  | cons a h ih =>
    intro hnn
    have h1 := ih (fun x hx => hnn x (List.mem_cons_of_mem a hx))
    have h2 : (0 : Int) ≤ a := hnn a (List.mem_cons_self a _)
    simp only [List.sum_cons]
    omega
  | cons₂ a h ih =>
    intro hnn
    have h1 := ih (fun x hx => hnn x (List.mem_cons_of_mem a hx))
    simp only [List.sum_cons]
    omega

theorem subperm_sum_le {l₁ l₂ : List Int} (h : List.Subperm l₁ l₂)
    (hnn : ∀ x ∈ l₂, 0 ≤ x) : l₁.sum ≤ l₂.sum := by
  obtain ⟨l, hperm, hsub⟩ := h
  calc l₁.sum = l.sum := hperm.sum_eq.symm
    _ ≤ l₂.sum := sublist_sum_le hsub hnn

theorem alloc_row_length (s : BankerSystem) (hwf : s.WF) (i : Nat) (hi : i < s.n) :
    (s.allocation.getD i []).length = s.m := by
  obtain ⟨-, -, -, hal, halr⟩ := hwf
  have hpl : i < s.allocation.length := by omega
  rw [getD_eq_getElem_of_lt _ _ _ hpl]
  exact halr _ (List.getElem_mem hpl)

theorem chainWork_mono (s : BankerSystem) (hwf : s.WF)
    (hnn : ∀ i < s.n, ∀ j, 0 ≤ (s.allocation.getD i []).getD j 0)
    (P F : List Nat) (hPnd : P.Nodup)
    (hPbd : ∀ i ∈ P, i < s.n) (hFbd : ∀ i ∈ F, i < s.n)
    (hPF : ∀ i ∈ P, i ∈ F) (j : Nat) (hj : j < s.m) :
    (chainWork s.allocation s.available P).getD j 0 ≤
    (chainWork s.allocation s.available F).getD j 0 := by
  have havl : s.available.length = s.m := hwf.1
  rw [chainWork_getD _ _ _ _ (by omega)
      (fun i hi => by rw [alloc_row_length s hwf i (hPbd i hi)]; omega),
    chainWork_getD _ _ _ _ (by omega)
      (fun i hi => by rw [alloc_row_length s hwf i (hFbd i hi)]; omega)]
  have hsub : List.Subperm (P.map fun i => (s.allocation.getD i []).getD j 0)
      (F.map fun i => (s.allocation.getD i []).getD j 0) := by
    obtain ⟨l, hp, hs⟩ := List.subperm_of_subset hPnd hPF
    exact ⟨l.map _, hp.map _, hs.map _⟩
  have hmono := subperm_sum_le hsub (by
    intro x hx
    obtain ⟨i, hi, rfl⟩ := List.mem_map.mp hx
    exact hnn i (hFbd i hi) j)
  omega

theorem chain_absorbed (s : BankerSystem) (hwf : s.WF)
    (hnn : ∀ i < s.n, ∀ j, 0 ≤ (s.allocation.getD i []).getD j 0) :
    ∀ (σ P : List Nat), σ.Nodup → (∀ i ∈ σ, i < s.n) → P.Nodup →
    (∀ i ∈ P, i < s.n) → (∀ i ∈ P, i ∈ (finalScan s).seq) → (∀ i ∈ σ, i ∉ P) →
    ValidChain s.need s.allocation (chainWork s.allocation s.available P) σ →
    ∀ i ∈ σ, i ∈ (finalScan s).seq
  | [], P, _, _, _, _, _, _, _ => fun i hi => absurd hi (List.not_mem_nil i)
  | x :: σ', P, hnd, hbd, hPnd, hPbd, hPF, hdisj, hch => by
    obtain ⟨hFlen, hFmem, hFnd, hFbd, hFwork, -⟩ := finalScan_inv s
    have hxn : x < s.n := hbd x (List.mem_cons_self x σ')
    have hx : x ∈ (finalScan s).seq := by
      by_contra hxF
      have hfin : (finalScan s).finish.getD x false = false := by
        cases hfx : (finalScan s).finish.getD x false
        · rfl
        · exact absurd ((hFmem x).mp hfx) hxF
      have hexit := finalScan_exit s x hxn hfin
      have hlen_needx : (s.need.getD x []).length = s.m := need_getD_length s x hxn
      have hlenP : (chainWork s.allocation s.available P).length = s.m :=
        chainWork_length _ _ P _ hwf.1 (fun i hi => alloc_row_length s hwf i (hPbd i hi))
      have hlenF :
          (chainWork s.allocation s.available (finalScan s).seq).length = s.m :=
        chainWork_length _ _ _ _ hwf.1 (fun i hi => alloc_row_length s hwf i (hFbd i hi))
      have hptP := (vec_le_iff_getD _ _ (by omega)).mp hch.1
      have hvleF : vec_le (s.need.getD x [])
          (chainWork s.allocation s.available (finalScan s).seq) = true := by
        refine (vec_le_iff_getD _ _ (by omega)).mpr ?_
        intro j hj
        have h1 := hptP j hj
        have h2 := chainWork_mono s hwf hnn P (finalScan s).seq hPnd hPbd hFbd hPF j
          (by omega)
        omega
      rw [← hFwork, hexit] at hvleF
      cases hvleF
    intro i hi
    rcases List.mem_cons.mp hi with rfl | hi'
    · exact hx
    · have hxnotP : x ∉ P := hdisj x (List.mem_cons_self x σ')
      have hσnd : σ'.Nodup := (List.nodup_cons.mp hnd).2
      have hxnotσ : x ∉ σ' := (List.nodup_cons.mp hnd).1
      refine chain_absorbed s hwf hnn σ' (P ++ [x]) hσnd
        (fun u hu => hbd u (List.mem_cons_of_mem x hu))
        (by simp [List.nodup_append, hPnd, hxnotP])
        (fun u hu => ?_) (fun u hu => ?_) (fun u hu hmem => ?_) ?_ i hi'
      · rcases List.mem_append.mp hu with h | h
        · exact hPbd u h
        · rw [List.mem_singleton.mp h]
          exact hxn
      · rcases List.mem_append.mp hu with h | h
        · exact hPF u h
        · rw [List.mem_singleton.mp h]
          exact hx
      · rcases List.mem_append.mp hmem with h | h
        · exact hdisj u (List.mem_cons_of_mem x hu) h
        · rw [List.mem_singleton.mp h] at hu
          exact hxnotσ hu
      · rw [chainWork_append]
        exact hch.2

theorem safety_complete (s : BankerSystem) (hwf : s.WF)
    (hnn : ∀ i < s.n, ∀ j, 0 ≤ (s.allocation.getD i []).getD j 0)
    (σ : List Nat) (hchain : ValidChain s.need s.allocation s.available σ)
    (hnd : σ.Nodup) (hbd : ∀ i ∈ σ, i < s.n) (hl : σ.length = s.n) :
    s.safety_check.1 = true := by
  have habs : ∀ i ∈ σ, i ∈ (finalScan s).seq :=
    chain_absorbed s hwf hnn σ [] hnd hbd List.nodup_nil (by simp) (by simp)
      (by simp) hchain
  have hperm : List.Perm σ (List.range s.n) :=
    (List.subperm_of_subset hnd
      (fun i hi => List.mem_range.mpr (hbd i hi))).perm_of_length_le (by simp [hl])
  obtain ⟨hFlen, hFmem, -, -, -, -⟩ := finalScan_inv s
  show (finalScan s).finish.all (fun b => b) = true
  rw [List.all_eq_true]
  intro b hb
  obtain ⟨i, hi, hbe⟩ := List.mem_iff_getElem.mp hb
  have hiσ : i ∈ σ := hperm.mem_iff.mpr (List.mem_range.mpr (by omega))
  have hfin := (hFmem i).mpr (habs i hiσ)
  rw [getD_eq_getElem_of_lt _ _ _ hi] at hfin
  rw [← hbe]
  exact hfin

theorem safe_seq_full (s : BankerSystem) (hsafe : s.safety_check.1 = true) :
    ∀ i < s.n, i ∈ (finalScan s).seq := by
  obtain ⟨hFlen, hFmem, -, -, -, -⟩ := finalScan_inv s
  have hall : (finalScan s).finish.all (fun b => b) = true := hsafe
  intro i hi
  apply (hFmem i).mp
  rw [getD_eq_getElem_of_lt _ _ _ (by omega)]
  exact List.all_eq_true.mp hall _ (List.getElem_mem (by omega))

theorem safe_seq_length (s : BankerSystem) (hsafe : s.safety_check.1 = true) :
    (finalScan s).seq.length = s.n := by
  obtain ⟨-, -, hFnd, hFbd, -, -⟩ := finalScan_inv s
  have h1 : List.Subperm (finalScan s).seq (List.range s.n) :=
    List.subperm_of_subset hFnd (fun i hi => List.mem_range.mpr (hFbd i hi))
  have h2 : List.Subperm (List.range s.n) (finalScan s).seq :=
    List.subperm_of_subset (List.nodup_range s.n)
      (fun i hi => safe_seq_full s hsafe i (List.mem_range.mp hi))
  have hl1 := h1.length_le
  have hl2 := h2.length_le
  simp only [List.length_range] at hl1 hl2
  omega

theorem ValidChain_release_same (need alloc : List (List Int)) (p : Nat) (rel : List Int) :
    ∀ (σ : List Nat) (w : List Int), p ∉ σ →
    ValidChain need alloc w σ →
    ValidChain (need.set p (vec_add (need.getD p []) rel))
      (alloc.set p (vec_sub (alloc.getD p []) rel)) w σ
  | [], _, _, _ => trivial
  | i :: σ', w, hp, hch => by
    have hip : i ≠ p := fun he => hp (he ▸ List.mem_cons_self i σ')
    refine ⟨?_, ?_⟩
    · rw [getD_set_ne _ _ _ _ _ hip]
      exact hch.1
    · rw [getD_set_ne _ _ _ _ _ hip]
      exact ValidChain_release_same need alloc p rel σ' _
        (fun hmem => hp (List.mem_cons_of_mem i hmem)) hch.2

theorem ValidChain_release_through (need alloc : List (List Int)) (p : Nat)
    (rel : List Int) (m : Nat) (hrelnn : ∀ x ∈ rel, 0 ≤ x) (hrel : rel.length = m)
    (hpn : p < need.length) (hpa : p < alloc.length) :
    ∀ (σ : List Nat) (w : List Int), σ.Nodup →
    (∀ i ∈ σ, (alloc.getD i []).length = m) → w.length = m →
    ValidChain need alloc w σ →
    ValidChain (need.set p (vec_add (need.getD p []) rel))
      (alloc.set p (vec_sub (alloc.getD p []) rel)) (vec_add w rel) σ
  | [], _, _, _, _, _ => trivial
  | i :: σ', w, hnd, hrows, hwl, hch => by
    by_cases hip : i = p
    · subst hip
      refine ⟨?_, ?_⟩
      · rw [getD_set_self _ _ _ _ hpn]
        exact vec_le_add_both _ _ _ hch.1
      · rw [getD_set_self _ _ _ _ hpa,
          vec_add_sub_cancel w _ rel
            (by rw [hwl, hrows i (List.mem_cons_self i σ')])
            (by rw [hrows i (List.mem_cons_self i σ'), hrel])]
        exact ValidChain_release_same need alloc i rel σ' _
          (List.nodup_cons.mp hnd).1 hch.2
    · refine ⟨?_, ?_⟩
      · rw [getD_set_ne _ _ _ _ _ hip]
        exact vec_le_add_of_nonneg _ _ _ hch.1 hrelnn
      · rw [getD_set_ne _ _ _ _ _ hip, vec_add_right_comm]
        refine ValidChain_release_through need alloc p rel m hrelnn hrel hpn hpa σ' _
          (List.nodup_cons.mp hnd).2
          (fun u hu => hrows u (List.mem_cons_of_mem i hu)) ?_ hch.2
        rw [vec_add_length, hwl, hrows i (List.mem_cons_self i σ')]
        omega

theorem getD_map_range (m : Nat) (g : Nat → Int) (j : Nat) (hj : j < m) :
    ((List.range m).map g).getD j 0 = g j := by
  rw [List.getD_eq_getElem?_getD, List.getElem?_map, List.getElem?_range hj]
  rfl

theorem need_getElem (s : BankerSystem) (i : Nat) (h : i < s.need.length) :
    s.need[i] = (List.range s.m).map (fun j =>
      (s.max_need.getD i []).getD j 0 - (s.allocation.getD i []).getD j 0) := by
  have hin : i < s.n := by simpa [BankerSystem.need] using h
  rw [← getD_eq_getElem_of_lt _ _ [] h]
  exact need_getD s i hin

theorem need_after_release (s : BankerSystem) (p : Nat) (rel : List Int)
    (hwf : s.WF) (hp : p < s.n) (hrel : rel.length = s.m) :
    ({ s with
        allocation := s.allocation.set p (vec_sub (s.allocation.getD p []) rel),
        available := vec_add s.available rel } : BankerSystem).need =
    s.need.set p (vec_add (s.need.getD p []) rel) := by
  have hrow : (s.allocation.getD p []).length = s.m := alloc_row_length s hwf p hp
  have hneedrow : (s.need.getD p []).length = s.m := need_getD_length s p hp
  have hneedlen : s.need.length = s.n := by simp [BankerSystem.need]
  have hpa : p < s.allocation.length := by
    obtain ⟨-, -, -, hal, -⟩ := hwf
    omega
  apply List.ext_getElem
  · simp [BankerSystem.need]
  intro i h1 h2
  have hin : i < s.n := by simpa [BankerSystem.need] using h1
  rw [need_getElem _ i h1]
  dsimp only
  by_cases hip : i = p
  · subst hip
    rw [List.getElem_set_self h2]
    have hset := getD_set_self s.allocation i
      (vec_sub (s.allocation.getD i []) rel) [] hpa
    simp only [hset]
    apply List.ext_getElem
    · rw [vec_add_length, hneedrow, hrel]
      simp
    intro j hj1 hj2
    have hjm : j < s.m := by simpa using hj1
    simp only [List.getElem_map, List.getElem_range]
    rw [← getD_eq_getElem_of_lt _ _ 0 hj2,
      getD_vec_add _ _ _ (by omega) (by omega),
      getD_vec_sub _ _ _ (by omega) (by omega),
      need_getD s i hp, getD_map_range _ _ _ hjm]
    ring
  · rw [List.getElem_set_ne (Ne.symm hip), need_getElem s i (by omega)]
    have hset := getD_set_ne s.allocation p i
      (vec_sub (s.allocation.getD p []) rel) [] hip
    simp only [hset]

/-- C3: on a well-formed ledger state satisfying I1 whose safety check
reports safe, a `release(pid, rel)` with `pid` in range, `rel` of length
`m`, componentwise non-negative and below `Allocation[pid]`, returns true
and commits a state whose safety check again reports safe.  The body of
`release` contains no call to the safety check: safety is preserved by
this theorem, not re-verified at run time. -/
theorem release_preserves_safety (s : BankerSystem) (pid : Int) (rel : List Int)
    (hwf : s.WF) (hI1 : s.I1) (hsafe : s.safety_check.1 = true)
    (hp0 : 0 ≤ pid) (hpn : pid < (s.n : Int)) (hlen : rel.length = s.m)
    (hrelnn : ∀ x ∈ rel, 0 ≤ x)
    (hle : vec_le rel (s.allocation.getD pid.toNat []) = true) :
    ∃ s', s.release pid rel = some (true, s') ∧ s'.safety_check.1 = true := by
  have hp : pid.toNat < s.n := by omega
  have hpa : pid.toNat < s.allocation.length := by
    obtain ⟨-, -, -, hal, -⟩ := hwf
    omega
  have hrow : (s.allocation.getD pid.toNat []).length = s.m :=
    alloc_row_length s hwf pid.toNat hp
  refine ⟨{ s with
      allocation := s.allocation.set pid.toNat
        (vec_sub (s.allocation.getD pid.toNat []) rel),
      available := vec_add s.available rel }, ?_, ?_⟩
  · simp only [BankerSystem.release]
    rw [if_neg (by push_neg; exact ⟨hp0, hpn⟩), if_neg (fun hc => hc hlen),
      if_neg (by rw [hle]; simp)]
  · obtain ⟨hFlen, hFmem, hFnd, hFbd, hFwork, hFchain⟩ := finalScan_inv s
    have hFlen2 : (finalScan s).seq.length = s.n := safe_seq_length s hsafe
    have hchain2 := ValidChain_release_through s.need s.allocation pid.toNat rel s.m
      hrelnn hlen (by simp only [BankerSystem.need, List.length_map, List.length_range]; omega)
      hpa (finalScan s).seq s.available hFnd
      (fun i hi => alloc_row_length s hwf i (hFbd i hi)) hwf.1 hFchain
    rw [← need_after_release s pid.toNat rel hwf hp hlen] at hchain2
    refine safety_complete _ ?_ ?_ (finalScan s).seq hchain2 hFnd hFbd hFlen2
    · obtain ⟨hav, hmx, hmxr, hal, halr⟩ := hwf
      refine ⟨?_, hmx, hmxr, ?_, ?_⟩
      · show (vec_add s.available rel).length = s.m
        rw [vec_add_length, hav, hlen]
        simp
      · show (s.allocation.set pid.toNat
          (vec_sub (s.allocation.getD pid.toNat []) rel)).length = s.n
        simpa using hal
      · intro r hr
        rcases List.mem_or_eq_of_mem_set hr with h | h
        · exact halr r h
        · rw [h, vec_sub_length, hrow, hlen]
          simp
    · intro i hi j
      show 0 ≤ ((s.allocation.set pid.toNat
        (vec_sub (s.allocation.getD pid.toNat []) rel)).getD i []).getD j 0
      by_cases hip : i = pid.toNat
      · subst hip
        rw [getD_set_self _ _ _ _ hpa]
        by_cases hjm : j < s.m
        · rw [getD_vec_sub _ _ _ (by omega) (by omega)]
          have := (vec_le_iff_getD rel (s.allocation.getD pid.toNat [])
            (by omega)).mp hle j (by omega)
          omega
        · rw [getD_zero_of_le _ _ (by rw [vec_sub_length, hrow, hlen]; omega)]
      · rw [getD_set_ne _ _ _ _ _ hip]
        by_cases hjm : j < s.m
        · exact (hI1 i hi j hjm).1
        · rw [getD_zero_of_le _ _ (by rw [alloc_row_length s hwf i hi]; omega)]

/-- Witness for C3: on Scenario A (a safe state), `release(1, [1,0,0])`
succeeds and the committed state is again safe. -/
theorem release_preserves_safety_witness :
    ∃ s', scenarioA.release 1 [1, 0, 0] = some (true, s') ∧
      s'.safety_check.1 = true :=
  release_preserves_safety scenarioA 1 [1, 0, 0] (by decide) (by decide) (by decide)
    (by decide) (by decide) (by decide) (by decide) (by decide)
